import Mathlib

/-
Verification of the compact history codec and tabulation engine of the
adaptive-api-python repository (module adaptive_api.pe).

The embedding models:
  - the key codec: to_key_string, id_to_string, string_to_id, id_equals;
  - the history decoder _fix_history: second-order delta decode of
    elapsedTimes, first-order delta decode of per-tag elapsedIndexes,
    kind-dispatched value decode (cumulative sum for number and date kinds,
    alternating expansion for boolean kind, verbatim otherwise);
  - the per-tag column computation of history_to_csv (cursor walk with
    forward fill).

Python strings are modelled as Lean strings where only equality and
stringification matter, and as lists of characters inside the key codec,
whose algebra of splitting and joining on the separator is proved here.
JSON numbers are modelled as integers (exact arithmetic). Operations that
can raise a Python exception (TypeError on adding a non-number, IndexError
on an out-of-range list access) return Option, with none marking the
exception. Fields of the source data classes that the modelled
computations never read (category, description, io, start, end, commands,
and so on) are omitted; the Time column of history_to_csv, which only
formats the start field plus the offset, is outside the model.
-/

namespace Adaptive

/-- A Python value carried in a tag values list: a JSON number (modelled
exactly as an integer), a boolean, or a string. -/
inductive Value where
  | int : ℤ → Value
  | bool : Bool → Value
  | str : String → Value
deriving DecidableEq

/-- Mirror of the HistoryTag dataclass, keeping the fields read by
_fix_history and history_to_csv. -/
structure HistoryTag where
  name : String
  type : String
  elapsedIndexes : List ℤ
  values : List Value
deriving DecidableEq

/-- Mirror of the AdaptiveHistory dataclass, keeping the fields read by
_fix_history. -/
structure AdaptiveHistory where
  elapsedTimes : List ℤ
  tags : List HistoryTag
deriving DecidableEq

/-- First-order cumulative sum with accumulator prev, as in the index and
numeric-value loops of _fix_history: value = prev + x; prev = value. -/
def cumsumFrom (prev : ℤ) : List ℤ → List ℤ
  | [] => []
  | x :: rest => (prev + x) :: cumsumFrom (prev + x) rest

/-- The elapsedTimes loop of _fix_history: delta = prev_delta + e;
prev_delta = delta; value = prev + delta; prev = value. -/
def fixElapsedAux (prevDelta prev : ℤ) : List ℤ → List ℤ
  | [] => []
  | e :: rest =>
    (prev + (prevDelta + e)) :: fixElapsedAux (prevDelta + e) (prev + (prevDelta + e)) rest

/-- Second-order delta decode of the wire elapsedTimes, both accumulators
starting at 0. -/
def fixElapsedTimes (wire : List ℤ) : List ℤ :=
  fixElapsedAux 0 0 wire

/-- Difference sequence with explicit previous value: entry i is the
current element minus its predecessor, the element before the list being
prev. -/
def diffFrom (prev : ℤ) : List ℤ → List ℤ
  | [] => []
  | x :: rest => (x - prev) :: diffFrom x rest

/-- First difference of a sequence, with implicit 0 before the first
element. -/
def firstDiff (l : List ℤ) : List ℤ :=
  diffFrom 0 l

/-- Second difference of a sequence, with implicit 0 initial conditions. -/
def secondDiff (l : List ℤ) : List ℤ :=
  firstDiff (firstDiff l)

/-- Python not applied to a value: boolean negation of its truthiness. -/
def pyNot : Value → Value
  | .int n => .bool (n = 0)
  | .bool b => .bool (!b)
  | .str s => .bool (s = "")

/-- Numeric content a Python + with an int on the left accepts: ints are
themselves, booleans coerce to 0 or 1, strings raise TypeError (none). -/
def valueAsNum : Value → Option ℤ
  | .int n => some n
  | .bool b => some (if b then 1 else 0)
  | .str _ => none

/-- The numeric-kind value loop of _fix_history: value = prev + values i;
prev = value. A non-numeric entry raises (none). -/
def fixValuesNumAux (prev : ℤ) : List Value → Option (List Value)
  | [] => some []
  | v :: rest =>
    match valueAsNum v with
    | none => none
    | some m => (fixValuesNumAux (prev + m) rest).map (Value.int (prev + m) :: ·)

/-- The boolean expansion loop body: n further entries, each the Python
negation of the previous one. -/
def expandBoolAux (last : Value) : Nat → List Value
  | 0 => []
  | n + 1 => pyNot last :: expandBoolAux (pyNot last) n

/-- The boolean-kind expansion of _fix_history: the first wire value
followed by alternation up to the length of elapsedIndexes. -/
def expandBool (v0 : Value) (n : Nat) : List Value :=
  v0 :: expandBoolAux v0 (n - 1)

/-- The per-tag body of _fix_history: decode elapsedIndexes by cumulative
sum, then dispatch on the declared kind: number and date values by
cumulative sum, boolean values by alternating expansion when the wire
values list is non-empty, anything else verbatim. -/
def fixTag (tag : HistoryTag) : Option HistoryTag :=
  let idxs := cumsumFrom 0 tag.elapsedIndexes
  if tag.type = "number" ∨ tag.type = "date" then
    (fixValuesNumAux 0 tag.values).map (fun vs => ⟨tag.name, tag.type, idxs, vs⟩)
  else if tag.type = "boolean" then
    match tag.values with
    | [] => some ⟨tag.name, tag.type, idxs, tag.values⟩
    | v0 :: _ => some ⟨tag.name, tag.type, idxs, expandBool v0 idxs.length⟩
  else
    some ⟨tag.name, tag.type, idxs, tag.values⟩

/-- Option-valued traversal of a list, none as soon as one element maps to
none. -/
def mapMO (f : α → Option β) : List α → Option (List β)
  | [] => some []
  | a :: l =>
    match f a with
    | none => none
    | some b => (mapMO f l).map (b :: ·)

/-- _fix_history on a whole record: decode elapsedTimes, then every tag in
order. -/
def fixHistory (h : AdaptiveHistory) : Option AdaptiveHistory :=
  (mapMO fixTag h.tags).map (fun ts => ⟨fixElapsedTimes h.elapsedTimes, ts⟩)

/-- Python str applied to a cell value: decimal form of a number, True or
False for a boolean, a string itself. -/
def pyStr : Value → String
  | .int n => toString n
  | .bool b => if b then "True" else "False"
  | .str s => s

/-- One rendered cell of history_to_csv: the textual form of the current
value, or empty when the value is still None. -/
def cellStr : Option Value → String
  | none => ""
  | some v => pyStr v

/-- The per-tag column computation of history_to_csv, one cell per global
row index: when the cursor points at a recorded index equal to the row
index, consume the paired value (an out-of-range access raises, none),
otherwise carry the last seen value; a cell is the textual form of the
current value, empty when none has been seen. The fuel argument counts the
remaining rows. -/
def tagCellsAux (idxs : List ℤ) (vals : List Value) : Nat → Nat → Nat → Option Value → Option (List String)
  | 0, _, _, _ => some []
  | fuel + 1, i, ptr, last =>
    match idxs[ptr]? with
    | some x =>
      if x = (i : ℤ) then
        match vals[ptr]? with
        | none => none
        | some v => (tagCellsAux idxs vals fuel (i + 1) (ptr + 1) (some v)).map (cellStr (some v) :: ·)
      else (tagCellsAux idxs vals fuel (i + 1) ptr last).map (cellStr last :: ·)
    | none => (tagCellsAux idxs vals fuel (i + 1) ptr last).map (cellStr last :: ·)

/-- The whole column of one tag over n rows, cursor and last seen value
starting empty, as in history_to_csv. -/
def tagColumn (tag : HistoryTag) (n : Nat) : Option (List String) :=
  tagCellsAux tag.elapsedIndexes tag.values n 0 0 none

/-- The ElapsedTime column of history_to_csv: the decoded offsets as
text. -/
def csvFirstColumn (h : AdaptiveHistory) : List String :=
  h.elapsedTimes.map (fun t => toString t)

/-- First option when set, second otherwise. -/
def orElseV (a b : Option Value) : Option Value :=
  match a with
  | some v => some v
  | none => b

/-- Modelled from the spec: the last known value of a tag as of row i, the
value paired with the greatest recorded index at most i, unset when the
tag has no recorded index at or before i. -/
def lastSeenSpec (idxs : List ℤ) (vals : List Value) (i : Nat) : Option Value :=
  (((idxs.zip vals).filter (fun p => decide (p.1 ≤ (i : ℤ)))).getLast?).map (fun p => p.2)

/-- Modelled from the spec: the forward-filled column of a tag over n
rows, each cell the textual form of the last known value as of that
row. -/
def specForwardFill (idxs : List ℤ) (vals : List Value) (n : Nat) : List String :=
  (List.range n).map (fun i => cellStr (lastSeenSpec idxs vals i))

/-- Cursor-free restatement of tagCellsAux consuming the remaining
recorded indexes and values as lists; used only to relate the cursor walk
of history_to_csv to the forward-fill specification. -/
def ffGo : Nat → List ℤ → List Value → Nat → Option Value → Option (List String)
  | 0, _, _, _, _ => some []
  | fuel + 1, [], vs, i, last => (ffGo fuel [] vs (i + 1) last).map (cellStr last :: ·)
  | fuel + 1, x :: ixr, vs, i, last =>
    if x = (i : ℤ) then
      match vs with
      | [] => none
      | v :: vsr => (ffGo fuel ixr vsr (i + 1) (some v)).map (cellStr (some v) :: ·)
    else (ffGo fuel (x :: ixr) vs (i + 1) last).map (cellStr last :: ·)

/-- A key segment: a Python string (as a list of characters) or an
integer. -/
inductive Scalar where
  | str : List Char → Scalar
  | int : ℤ → Scalar
deriving DecidableEq

/-- An identifier: a bare scalar or a composite key (ordered sequence of
scalars). -/
inductive IdVal where
  | scalar : Scalar → IdVal
  | seq : List Scalar → IdVal
deriving DecidableEq

/-- The sentinel test of the trailing-trim loop in to_key_string: a
segment is droppable when it equals the empty string or the integer 0. -/
def isSentinel : Scalar → Bool
  | .str s => decide (s = [])
  | .int n => decide (n = 0)

/-- The index j computed by the trailing loop of to_key_string: the
longest prefix of the key ending in a non-sentinel segment (scanning from
the end, dropping sentinel segments). -/
def dropTrailingSentinels : List Scalar → List Scalar
  | [] => []
  | v :: rest =>
    match dropTrailingSentinels rest with
    | [] => if isSentinel v then [] else [v]
    | r => v :: r

/-- The decimal digit characters. -/
def digitChar : ℕ → Char
  | 0 => '0'
  | 1 => '1'
  | 2 => '2'
  | 3 => '3'
  | 4 => '4'
  | 5 => '5'
  | 6 => '6'
  | 7 => '7'
  | 8 => '8'
  | _ => '9'

/-- Numeric value of a string of decimal digits. -/
def digitsVal (l : List Char) : ℕ :=
  l.foldl (fun a c => a * 10 + (c.toNat - 48)) 0

/-- Decimal digits of a natural number, most significant first, empty for
0; the fuel argument bounds the recursion depth and any fuel above the
number itself is enough. -/
def natDigitsAux : ℕ → ℕ → List Char
  | 0, _ => []
  | fuel + 1, n => if n = 0 then [] else natDigitsAux fuel (n / 10) ++ [digitChar (n % 10)]

/-- Python str of a natural number. -/
def natToStr (n : ℕ) : List Char :=
  if n = 0 then ['0'] else natDigitsAux (n + 1) n

/-- Python str of an integer. -/
def intToStr (n : ℤ) : List Char :=
  if n < 0 then '-' :: natToStr n.natAbs else natToStr n.toNat

/-- Parse a non-empty all-digit string as a natural number. -/
def parseNatStr (l : List Char) : Option ℕ :=
  if l ≠ [] ∧ l.all Char.isDigit then some (digitsVal l) else none

/-- Model of Python int applied to a string: an optional sign followed by
decimal digits; a string of any other shape raises ValueError (none).
Python additionally strips surrounding whitespace and accepts underscore
digit separators, which no claim here touches. -/
def parseInt (l : List Char) : Option ℤ :=
  match l with
  | [] => none
  | c :: rest =>
    if c = '-' then
      match parseNatStr rest with
      | none => none
      | some m => some (-(m : ℤ))
    else if c = '+' then
      match parseNatStr rest with
      | none => none
      | some m => some ((m : ℤ))
    else
      match parseNatStr (c :: rest) with
      | none => none
      | some m => some ((m : ℤ))

/-- Python split of a string on a separator character: always at least one
part, never losing characters. -/
def splitChar (sep : Char) : List Char → List (List Char)
  | [] => [[]]
  | c :: cs =>
    if c = sep then [] :: splitChar sep cs
    else
      match splitChar sep cs with
      | [] => [[c]]
      | p :: ps => (c :: p) :: ps

/-- Python join of parts with a separator character. -/
def joinChar (sep : Char) : List (List Char) → List Char
  | [] => []
  | [p] => p
  | p :: q :: ps => p ++ sep :: joinChar sep (q :: ps)

/-- One joined segment of to_key_string: a single-space string renders as
an empty segment, anything else as its Python str form. -/
def renderKeyItem : Scalar → List Char
  | .str s => if s = [' '] then [] else s
  | .int n => intToStr n

/-- to_key_string: drop trailing sentinel segments, render each remaining
segment, join with the at-sign. -/
def to_key_string (key : List Scalar) : List Char :=
  joinChar '@' ((dropTrailingSentinels key).map renderKeyItem)

/-- id_to_string: a list goes through to_key_string, a scalar through
Python str. The None input of the source (rendered as the empty string) is
outside the identifier type. -/
def id_to_string : IdVal → List Char
  | .scalar (.str s) => s
  | .scalar (.int n) => intToStr n
  | .seq l => to_key_string l

/-- string_to_id: split on the at-sign; a single part is returned as the
bare string scalar unchanged; with several parts, part 0 stays a string
(the empty part becoming the single-space blank marker) and every later
part goes through Python int. -/
def string_to_id (s : List Char) : Option IdVal :=
  match splitChar '@' s with
  | [] => none
  | [_] => some (.scalar (.str s))
  | p0 :: rest =>
    (mapMO (fun p => (parseInt p).map Scalar.int) rest).map
      (fun tail => .seq (.str (if p0 = [] then [' '] else p0) :: tail))

/-- id_equals: structural equality first; two sequences compare by length
and pairwise equality; a sequence against a scalar compares its element 0
(raising IndexError, none, when the sequence is empty); two unequal
scalars are unequal. -/
def id_equals (x y : IdVal) : Option Bool :=
  if x = y then some true
  else
    match x, y with
    | .seq a, .seq b =>
      some (decide (a.length = b.length) && (a.zip b).all (fun p => decide (p.1 = p.2)))
    | .seq a, .scalar s =>
      match a.head? with
      | none => none
      | some xv => some (decide (xv = s))
    | .scalar s, .seq b =>
      match b.head? with
      | none => none
      | some yv => some (decide (yv = s))
    | .scalar _, .scalar _ => some false

-- Theorems and supporting lemmas from here on.

theorem diffFrom_cumsumFrom (l : List ℤ) : ∀ p : ℤ, diffFrom p (cumsumFrom p l) = l := by
  induction l with
  | nil => intro p; rfl
  | cons x rest ih =>
    intro p
    simp [cumsumFrom, diffFrom, ih (p + x)]

theorem diffFrom_fixElapsedAux (l : List ℤ) :
    ∀ pd p : ℤ, diffFrom p (fixElapsedAux pd p l) = cumsumFrom pd l := by
  induction l with
  | nil => intro pd p; rfl
  | cons e rest ih =>
    intro pd p
    simp [fixElapsedAux, diffFrom, cumsumFrom, ih]

/-- Claim C1: for every wire-encoded list of integers d, decoding
elapsedTimes with the two accumulators of _fix_history produces a sequence
whose second difference (taken with implicit zero initial conditions)
equals d exactly; in particular the wire deltas 5, 5, 5 decode to
5, 15, 30. -/
theorem c1_elapsed_second_diff :
    (∀ d : List ℤ, secondDiff (fixElapsedTimes d) = d) ∧
    fixElapsedTimes [5, 5, 5] = [5, 15, 30] := by
  constructor
  · intro d
    unfold secondDiff firstDiff fixElapsedTimes
    rw [diffFrom_fixElapsedAux, diffFrom_cumsumFrom]
  · rfl

theorem fixElapsedAux_chain (l : List ℤ) :
    ∀ pd p : ℤ, (∀ x ∈ cumsumFrom pd l, 0 ≤ x) →
      List.Chain' (· ≤ ·) (p :: fixElapsedAux pd p l) := by
  induction l with
  | nil => intro pd p _; simp [fixElapsedAux]
  | cons e rest ih =>
    intro pd p h
    rw [fixElapsedAux, List.chain'_cons]
    constructor
    · have h0 : 0 ≤ pd + e := h (pd + e) (by rw [cumsumFrom]; exact List.mem_cons_self _ _)
      omega
    · exact ih (pd + e) (p + (pd + e))
        (fun x hx => h x (by rw [cumsumFrom]; exact List.mem_cons_of_mem _ hx))

/-- Counterexample to claim C3 as stated: the wire deltas 0, -1 decode to
the sequence 0, -1, which is not monotonically non-decreasing. -/
theorem c3_monotone_counterexample :
    fixElapsedTimes [0, -1] = [0, -1] ∧
    ¬ List.Chain' (· ≤ ·) (fixElapsedTimes [0, -1]) := by
  constructor
  · rfl
  · rw [show fixElapsedTimes [0, -1] = [0, -1] from rfl]
    simp [List.chain'_cons]

/-- Claim C3, amended: for every sequence of raw wire deltas d whose
prefix sums (the decoded running deltas) are all non-negative, the decoded
elapsedTimes sequence is monotonically non-decreasing. -/
theorem c3_monotone (d : List ℤ) (h : ∀ x ∈ cumsumFrom 0 d, 0 ≤ x) :
    List.Chain' (· ≤ ·) (fixElapsedTimes d) :=
  (fixElapsedAux_chain d 0 0 h).tail

/-- Witness for the amended claim C3 at the wire deltas 5, 5, 5. -/
theorem c3_monotone_witness : List.Chain' (· ≤ ·) (fixElapsedTimes [5, 5, 5]) :=
  c3_monotone [5, 5, 5] (by decide)

theorem fixValuesNumAux_map_int (w : List ℤ) :
    ∀ p : ℤ, fixValuesNumAux p (w.map Value.int) = some ((cumsumFrom p w).map Value.int) := by
  induction w with
  | nil => intro p; rfl
  | cons x rest ih =>
    intro p
    simp [fixValuesNumAux, valueAsNum, cumsumFrom, ih (p + x)]

/-- Claim C8: for every tag of numeric or date kind with integer wire
values, the decoded values sequence is the cumulative sum of the wire
values, and its first difference reproduces the wire values exactly. -/
theorem c8_numeric_cumsum (nm : String) (idxs w : List ℤ) :
    fixTag ⟨nm, "number", idxs, w.map Value.int⟩ =
      some ⟨nm, "number", cumsumFrom 0 idxs, (cumsumFrom 0 w).map Value.int⟩ ∧
    fixTag ⟨nm, "date", idxs, w.map Value.int⟩ =
      some ⟨nm, "date", cumsumFrom 0 idxs, (cumsumFrom 0 w).map Value.int⟩ ∧
    firstDiff (cumsumFrom 0 w) = w := by
  refine ⟨?_, ?_, ?_⟩
  · unfold fixTag
    rw [if_pos (Or.inl rfl)]
    simp [fixValuesNumAux_map_int]
  · unfold fixTag
    rw [if_pos (Or.inr rfl)]
    simp [fixValuesNumAux_map_int]
  · exact diffFrom_cumsumFrom w 0

theorem cumsumFrom_length (l : List ℤ) : ∀ p : ℤ, (cumsumFrom p l).length = l.length := by
  induction l with
  | nil => intro p; rfl
  | cons x rest ih => intro p; simp [cumsumFrom, ih]

theorem expandBoolAux_length (n : Nat) : ∀ v : Value, (expandBoolAux v n).length = n := by
  induction n with
  | zero => intro v; rfl
  | succ n ih => intro v; simp [expandBoolAux, ih]

theorem expandBoolAux_chain (n : Nat) :
    ∀ v : Value, List.Chain' (fun a b => b = pyNot a) (v :: expandBoolAux v n) := by
  induction n with
  | zero => intro v; simp [expandBoolAux]
  | succ n ih =>
    intro v
    rw [expandBoolAux, List.chain'_cons]
    exact ⟨rfl, ih (pyNot v)⟩

/-- Counterexample to claim C2 as stated: a boolean tag with zero recorded
indexes and a non-empty wire values list decodes to a values sequence of
length 1, not of length N = 0. -/
theorem c2_boolean_counterexample :
    (fixTag ⟨"b", "boolean", [], [Value.bool true]⟩).map (fun t => t.values.length) = some 1 ∧
    (fixTag ⟨"b", "boolean", [], [Value.bool true]⟩).map (fun t => t.elapsedIndexes.length) = some 0 := by
  decide

/-- Claim C2, amended: for every boolean-kind tag with N recorded indexes,
N at least 1, and a non-empty wire values list with first entry v0, the
decoded values sequence has length exactly N, starts with v0, alternates
strictly (each entry is the Python negation of the previous one), and the
wire value entries beyond the first are discarded. -/
theorem c2_boolean_expand (nm : String) (idxs : List ℤ) (v0 : Value) (rest : List Value)
    (h : 1 ≤ idxs.length) :
    ∃ t', fixTag ⟨nm, "boolean", idxs, v0 :: rest⟩ = some t' ∧
      t'.values.length = idxs.length ∧
      t'.values.head? = some v0 ∧
      List.Chain' (fun a b => b = pyNot a) t'.values ∧
      fixTag ⟨nm, "boolean", idxs, v0 :: rest⟩ = fixTag ⟨nm, "boolean", idxs, [v0]⟩ := by
  have hne : ¬ (("boolean" : String) = "number" ∨ ("boolean" : String) = "date") := by decide
  refine ⟨⟨nm, "boolean", cumsumFrom 0 idxs,
    expandBool v0 (cumsumFrom 0 idxs).length⟩, ?_, ?_, ?_, ?_, ?_⟩
  · unfold fixTag
    rw [if_neg hne, if_pos rfl]
  · rw [expandBool]
    simp only [List.length_cons, expandBoolAux_length, cumsumFrom_length]
    omega
  · rfl
  · exact expandBoolAux_chain _ v0
  · unfold fixTag
    rw [if_neg hne, if_pos rfl, if_neg hne, if_pos rfl]

/-- Witness for the amended claim C2 at a boolean tag with one recorded
index. -/
theorem c2_boolean_expand_witness :
    ∃ t', fixTag ⟨"b", "boolean", [0], [Value.bool true]⟩ = some t' ∧
      t'.values.length = ([0] : List ℤ).length ∧
      t'.values.head? = some (Value.bool true) ∧
      List.Chain' (fun a b => b = pyNot a) t'.values ∧
      fixTag ⟨"b", "boolean", [0], [Value.bool true]⟩ = fixTag ⟨"b", "boolean", [0], [Value.bool true]⟩ :=
  c2_boolean_expand "b" [0] (Value.bool true) [] (by decide)

theorem fixValuesNumAux_length (vs : List Value) :
    ∀ (p : ℤ) (vs' : List Value), fixValuesNumAux p vs = some vs' → vs'.length = vs.length := by
  induction vs with
  | nil =>
    intro p vs' h
    simp [fixValuesNumAux] at h
    simp [h.symm]
  | cons v rest ih =>
    intro p vs' h
    rw [fixValuesNumAux] at h
    cases hv : valueAsNum v with
    | none => rw [hv] at h; simp at h
    | some m =>
      rw [hv] at h
      dsimp only at h
      cases hr : fixValuesNumAux (p + m) rest with
      | none => rw [hr] at h; simp at h
      | some r =>
        rw [hr] at h
        simp at h
        subst h
        simp [ih (p + m) r hr]

theorem mapMO_forall₂ (f : α → Option β) (l : List α) :
    ∀ l' : List β, mapMO f l = some l' → List.Forall₂ (fun a b => f a = some b) l l' := by
  induction l with
  | nil =>
    intro l' h
    rw [mapMO] at h
    injection h with h
    subst h
    exact List.Forall₂.nil
  | cons a rest ih =>
    intro l' h
    rw [mapMO] at h
    cases ha : f a with
    | none => rw [ha] at h; simp at h
    | some b =>
      rw [ha] at h
      dsimp only at h
      cases hr : mapMO f rest with
      | none => rw [hr] at h; simp at h
      | some r =>
        rw [hr] at h
        simp at h
        subst h
        exact List.Forall₂.cons ha (ih r hr)

theorem forall₂_mem_right {R : α → β → Prop} {l : List α} {l' : List β}
    (h : List.Forall₂ R l l') : ∀ b ∈ l', ∃ a ∈ l, R a b := by
  induction h with
  | nil => intro b hb; exact absurd hb (by simp)
  | cons hab _ ih =>
    intro b hb
    rcases List.mem_cons.mp hb with h1 | h2
    · exact ⟨_, List.mem_cons_self _ _, h1 ▸ hab⟩
    · rcases ih b h2 with ⟨a, ha, hr⟩
      exact ⟨a, List.mem_cons_of_mem _ ha, hr⟩

theorem fixTag_length (t t' : HistoryTag) (hfix : fixTag t = some t')
    (hbool : t.type = "boolean" → (t.values = [] ↔ t.elapsedIndexes = []))
    (hother : t.type ≠ "boolean" → t.values.length = t.elapsedIndexes.length) :
    t'.values.length = t'.elapsedIndexes.length := by
  unfold fixTag at hfix
  by_cases h1 : t.type = "number" ∨ t.type = "date"
  · rw [if_pos h1] at hfix
    cases hv : fixValuesNumAux 0 t.values with
    | none => rw [hv] at hfix; exact absurd hfix (by simp)
    | some vs =>
      rw [hv] at hfix
      simp at hfix
      have hlen := fixValuesNumAux_length t.values 0 vs hv
      have htype : t.type ≠ "boolean" := by
        rcases h1 with h | h <;> rw [h] <;> decide
      rw [hfix.symm]
      simp [hlen, cumsumFrom_length, hother htype]
  · rw [if_neg h1] at hfix
    by_cases h2 : t.type = "boolean"
    · rw [if_pos h2] at hfix
      cases hv : t.values with
      | nil =>
        rw [hv] at hfix
        simp at hfix
        have hidx : t.elapsedIndexes = [] := (hbool h2).mp hv
        rw [hfix.symm]
        simp [hv, hidx, cumsumFrom]
      | cons v0 vrest =>
        rw [hv] at hfix
        simp at hfix
        have hidx : t.elapsedIndexes ≠ [] := by
          intro hnil
          have := (hbool h2).mpr hnil
          rw [hv] at this
          exact absurd this (by simp)
        have hpos : 1 ≤ t.elapsedIndexes.length := List.length_pos.mpr hidx
        rw [hfix.symm]
        rw [expandBool]
        simp only [List.length_cons, expandBoolAux_length, cumsumFrom_length]
        omega
    · rw [if_neg h2] at hfix
      simp at hfix
      rw [hfix.symm]
      simp [cumsumFrom_length, hother h2]

/-- Counterexample to claim C5 as stated: a payload with a number tag
whose wire arity is already wrong (one recorded index, no values) decodes
without complaint into a history violating the invariant. -/
theorem c5_arity_counterexample :
    fixHistory ⟨[], [⟨"t", "number", [0], []⟩]⟩ = some ⟨[], [⟨"t", "number", [0], []⟩]⟩ ∧
    ¬ (∀ t' ∈ [(⟨"t", "number", [0], []⟩ : HistoryTag)],
        t'.values.length = t'.elapsedIndexes.length) := by
  constructor
  · decide
  · decide

/-- Claim C5, amended: after a successful history decode, every tag
satisfies len(values) = len(elapsedIndexes), provided the wire payload
already satisfied it: for boolean-kind tags the wire values and recorded
indexes are empty together, and for every other kind the wire arity
matches. -/
theorem c5_arity_invariant (h h' : AdaptiveHistory) (hfix : fixHistory h = some h')
    (hcond : ∀ t ∈ h.tags,
      (t.type = "boolean" → (t.values = [] ↔ t.elapsedIndexes = [])) ∧
      (t.type ≠ "boolean" → t.values.length = t.elapsedIndexes.length)) :
    ∀ t' ∈ h'.tags, t'.values.length = t'.elapsedIndexes.length := by
  intro t' ht'
  unfold fixHistory at hfix
  cases hm : mapMO fixTag h.tags with
  | none => rw [hm] at hfix; exact absurd hfix (by simp)
  | some ts =>
    rw [hm] at hfix
    simp at hfix
    have hts : h'.tags = ts := by rw [hfix.symm]
    rw [hts] at ht'
    rcases forall₂_mem_right (mapMO_forall₂ fixTag h.tags ts hm) t' ht' with ⟨t, ht, hft⟩
    exact fixTag_length t t' hft (hcond t ht).1 (hcond t ht).2

/-- Witness for the amended claim C5 at a one-tag payload with matching
wire arity. -/
theorem c5_arity_invariant_witness :
    (HistoryTag.values ⟨"t", "number", [0], [Value.int 2]⟩).length =
      (HistoryTag.elapsedIndexes ⟨"t", "number", [0], [Value.int 2]⟩).length :=
  c5_arity_invariant ⟨[1], [⟨"t", "number", [0], [Value.int 2]⟩]⟩
    ⟨[1], [⟨"t", "number", [0], [Value.int 2]⟩]⟩ (by decide) (by decide)
    ⟨"t", "number", [0], [Value.int 2]⟩ (by decide)

/-- Claim C6 evaluated at the failing input: on a number tag whose wire
values list is shorter than its recorded indexes, _fix_history returns
normally with the mismatched, partially decoded tag, raising no error, and
the later tabulation of that tag fails with a bare out-of-range access
(none) instead of a structured decode-time error. -/
theorem c6_no_fail_fast :
    fixHistory ⟨[0, 1], [⟨"t", "number", [0, 1], [Value.int 7]⟩]⟩ =
      some ⟨[0, 1], [⟨"t", "number", [0, 1], [Value.int 7]⟩]⟩ ∧
    tagColumn ⟨"t", "number", [0, 1], [Value.int 7]⟩ 2 = none := by
  constructor
  · decide
  · decide

theorem zip_all_eq (a : List Scalar) :
    ∀ b : List Scalar, a.length = b.length →
      (((a.zip b).all (fun p => decide (p.1 = p.2))) = true ↔ a = b) := by
  induction a with
  | nil =>
    intro b hb
    cases b with
    | nil => simp
    | cons y b' => simp at hb
  | cons x a' ih =>
    intro b hb
    cases b with
    | nil => simp at hb
    | cons y b' =>
      have hb' : a'.length = b'.length := by simpa using hb
      simp only [List.zip_cons_cons, List.all_cons, Bool.and_eq_true, decide_eq_true_eq,
        List.cons.injEq]
      rw [ih b' hb']

theorem id_equals_seq_seq (a b : List Scalar) :
    id_equals (.seq a) (.seq b) = some (decide (a = b)) := by
  by_cases hab : a = b
  · subst hab
    rw [id_equals, if_pos rfl]
    simp
  · rw [id_equals, if_neg (by simp [hab])]
    congr 1
    by_cases hlen : a.length = b.length
    · rw [Bool.eq_iff_iff]
      simp only [Bool.and_eq_true, decide_eq_true_eq]
      rw [zip_all_eq a b hlen]
      tauto
    · simp [hlen, hab]

/-- Claim C9: the identifier equality predicate returns true on a
singleton sequence against its own scalar, true on two equal pairs, false
on pairs differing in the second component, and on two sequences returns
true exactly when they have the same length and are pairwise equal. -/
theorem c9_id_equals_spec :
    (∀ x : Scalar, id_equals (.seq [x]) (.scalar x) = some true) ∧
    (∀ x y : Scalar, id_equals (.seq [x, y]) (.seq [x, y]) = some true) ∧
    (∀ x y z : Scalar, y ≠ z → id_equals (.seq [x, y]) (.seq [x, z]) = some false) ∧
    (∀ a b : List Scalar, id_equals (.seq a) (.seq b) = some true ↔
      (a.length = b.length ∧ List.Forall₂ (fun u v => u = v) a b)) := by
  refine ⟨?_, ?_, ?_, ?_⟩
  · intro x
    rw [id_equals, if_neg (by simp)]
    simp [List.head?]
  · intro x y
    rw [id_equals, if_pos rfl]
  · intro x y z hyz
    rw [id_equals_seq_seq]
    simp [hyz]
  · intro a b
    rw [id_equals_seq_seq]
    constructor
    · intro h
      have hab : a = b := by simpa using h
      subst hab
      exact ⟨rfl, List.forall₂_same.mpr (fun x _ => rfl)⟩
    · intro ⟨hlen, hfa⟩
      have hab : a = b := by
        clear hlen
        induction hfa with
        | nil => rfl
        | cons h _ ih => rw [h, ih]
      simp [hab]

/-- Witness for claim C9 at a concrete unequal pair. -/
theorem c9_id_equals_spec_witness :
    id_equals (.seq [Scalar.int 7, Scalar.int 1]) (.seq [Scalar.int 7, Scalar.int 2]) =
      some false :=
  c9_id_equals_spec.2.2.1 (Scalar.int 7) (Scalar.int 1) (Scalar.int 2) (by decide)

/-- Claim C10: id_equals is partial exactly at an empty sequence against a
scalar, where the element 0 access raises (none); on every other shape of
input it returns a boolean. -/
theorem c10_id_equals_partial :
    (∀ s : Scalar, id_equals (.seq []) (.scalar s) = none) ∧
    (∀ s : Scalar, id_equals (.scalar s) (.seq []) = none) ∧
    (∀ (a : List Scalar) (s : Scalar), a ≠ [] →
      (id_equals (.seq a) (.scalar s)).isSome ∧ (id_equals (.scalar s) (.seq a)).isSome) ∧
    (∀ a b : List Scalar, (id_equals (.seq a) (.seq b)).isSome) ∧
    (∀ s t : Scalar, (id_equals (.scalar s) (.scalar t)).isSome) := by
  refine ⟨?_, ?_, ?_, ?_, ?_⟩
  · intro s
    rw [id_equals, if_neg (by simp)]
    rfl
  · intro s
    rw [id_equals, if_neg (by simp)]
    rfl
  · intro a s ha
    cases a with
    | nil => exact absurd rfl ha
    | cons x a' =>
      constructor
      · rw [id_equals, if_neg (by simp)]
        simp [List.head?]
      · rw [id_equals, if_neg (by simp)]
        simp [List.head?]
  · intro a b
    rw [id_equals_seq_seq]
    rfl
  · intro s t
    by_cases h : s = t
    · rw [id_equals, if_pos (by rw [h])]
      rfl
    · rw [id_equals, if_neg (by simp [h])]
      rfl

/-- Witness for claim C10: totality on a non-empty sequence against a
scalar. -/
theorem c10_id_equals_partial_witness :
    (id_equals (.seq [Scalar.int 1]) (.scalar (Scalar.int 2))).isSome ∧
    (id_equals (.scalar (Scalar.int 2)) (.seq [Scalar.int 1])).isSome :=
  c10_id_equals_partial.2.2.1 [Scalar.int 1] (Scalar.int 2) (by decide)

theorem digitChar_val (d : ℕ) (h : d < 10) : (digitChar d).toNat - 48 = d := by
  interval_cases d <;> decide

theorem digitChar_isDigit (d : ℕ) (h : d < 10) : (digitChar d).isDigit = true := by
  interval_cases d <;> decide

theorem digitsVal_append (l : List Char) (c : Char) :
    digitsVal (l ++ [c]) = 10 * digitsVal l + (c.toNat - 48) := by
  unfold digitsVal
  rw [List.foldl_append]
  simp [List.foldl]
  omega

theorem natDigitsAux_spec (fuel : ℕ) :
    ∀ n : ℕ, n < fuel →
      digitsVal (natDigitsAux fuel n) = n ∧ (natDigitsAux fuel n).all Char.isDigit = true := by
  induction fuel with
  | zero => intro n h; omega
  | succ fuel ih =>
    intro n h
    rw [natDigitsAux]
    by_cases h0 : n = 0
    · subst h0
      simp [digitsVal]
    · rw [if_neg h0]
      have hdiv : n / 10 < fuel := by
        have h1 : n / 10 < n := Nat.div_lt_self (Nat.pos_of_ne_zero h0) (by norm_num)
        omega
      obtain ⟨ihv, iha⟩ := ih (n / 10) hdiv
      refine ⟨?_, ?_⟩
      · rw [digitsVal_append, ihv, digitChar_val (n % 10) (Nat.mod_lt n (by omega))]
        omega
      · rw [List.all_append, iha]
        simp [digitChar_isDigit (n % 10) (Nat.mod_lt n (by omega))]

theorem natToStr_all_digits (n : ℕ) : (natToStr n).all Char.isDigit = true := by
  rw [natToStr]
  by_cases h0 : n = 0
  · rw [if_pos h0]; decide
  · rw [if_neg h0]
    exact (natDigitsAux_spec (n + 1) n (by omega)).2

theorem natToStr_ne_nil (n : ℕ) : natToStr n ≠ [] := by
  rw [natToStr]
  by_cases h0 : n = 0
  · rw [if_pos h0]; simp
  · rw [if_neg h0, natDigitsAux, if_neg h0]
    simp

theorem parseNatStr_natToStr (n : ℕ) : parseNatStr (natToStr n) = some n := by
  by_cases h0 : n = 0
  · subst h0; decide
  · rw [parseNatStr, if_pos ⟨natToStr_ne_nil n, natToStr_all_digits n⟩]
    rw [natToStr, if_neg h0]
    rw [(natDigitsAux_spec (n + 1) n (by omega)).1]

theorem parseInt_intToStr (n : ℤ) : parseInt (intToStr n) = some n := by
  rw [intToStr]
  by_cases hn : n < 0
  · rw [if_pos hn]
    rw [parseInt, if_pos rfl, parseNatStr_natToStr]
    show some (-((n.natAbs : ℕ) : ℤ)) = some n
    congr 1
    omega
  · rw [if_neg hn]
    cases hl : natToStr n.toNat with
    | nil => exact absurd hl (natToStr_ne_nil _)
    | cons c rest =>
      have hcd : c.isDigit = true := by
        have := natToStr_all_digits n.toNat
        rw [hl, List.all_cons] at this
        exact ((Bool.and_eq_true _ _).mp this).1
      have hc1 : ¬ (c = '-') := by
        intro hc; rw [hc] at hcd; exact absurd hcd (by decide)
      have hc2 : ¬ (c = '+') := by
        intro hc; rw [hc] at hcd; exact absurd hcd (by decide)
      rw [parseInt, if_neg hc1, if_neg hc2, ← hl, parseNatStr_natToStr]
      show some (((n.toNat : ℕ) : ℤ)) = some n
      congr 1
      omega

theorem at_not_mem_natToStr (n : ℕ) : '@' ∉ natToStr n := by
  intro hmem
  have := List.all_eq_true.mp (natToStr_all_digits n) '@' hmem
  exact absurd this (by decide)

theorem at_not_mem_intToStr (n : ℤ) : '@' ∉ intToStr n := by
  rw [intToStr]
  by_cases hn : n < 0
  · rw [if_pos hn]
    intro hmem
    rcases List.mem_cons.mp hmem with h | h
    · exact absurd h (by decide)
    · exact at_not_mem_natToStr _ h
  · rw [if_neg hn]
    exact at_not_mem_natToStr _

theorem splitChar_ne_nil (sep : Char) (l : List Char) : splitChar sep l ≠ [] := by
  induction l with
  | nil => simp [splitChar]
  | cons c cs ih =>
    rw [splitChar]
    by_cases h : c = sep
    · rw [if_pos h]; simp
    · rw [if_neg h]
      cases hs : splitChar sep cs with
      | nil => simp
      | cons p ps => simp

theorem splitChar_single (sep : Char) (l : List Char) (h : sep ∉ l) :
    splitChar sep l = [l] := by
  induction l with
  | nil => rfl
  | cons c cs ih =>
    have hc : ¬ (c = sep) := fun hc => h (hc ▸ List.mem_cons_self _ _)
    have hcs : sep ∉ cs := fun hm => h (List.mem_cons_of_mem _ hm)
    rw [splitChar, if_neg hc, ih hcs]

theorem joinChar_splitChar (sep : Char) (l : List Char) :
    joinChar sep (splitChar sep l) = l := by
  induction l with
  | nil => rfl
  | cons c cs ih =>
    rw [splitChar]
    by_cases h : c = sep
    · rw [if_pos h]
      cases hs : splitChar sep cs with
      | nil => exact absurd hs (splitChar_ne_nil _ _)
      | cons q qs =>
        rw [hs] at ih
        rw [joinChar]
        simp only [List.nil_append]
        rw [ih, h]
    · rw [if_neg h]
      cases hs : splitChar sep cs with
      | nil => exact absurd hs (splitChar_ne_nil _ _)
      | cons p ps =>
        rw [hs] at ih
        change joinChar sep ((c :: p) :: ps) = c :: cs
        cases ps with
        | nil =>
          rw [joinChar] at ih
          rw [joinChar, ih]
        | cons r rs =>
          rw [joinChar] at ih
          rw [joinChar, ← ih]
          simp

theorem splitChar_append_sep (sep : Char) (p t : List Char) (h : sep ∉ p) :
    splitChar sep (p ++ sep :: t) = p :: splitChar sep t := by
  induction p with
  | nil =>
    rw [List.nil_append, splitChar, if_pos rfl]
  | cons a p' ih =>
    have ha : ¬ (a = sep) := fun hc => h (hc ▸ List.mem_cons_self _ _)
    have hp' : sep ∉ p' := fun hm => h (List.mem_cons_of_mem _ hm)
    rw [List.cons_append, splitChar, if_neg ha, ih hp']

theorem splitChar_joinChar (sep : Char) (parts : List (List Char))
    (h : ∀ p ∈ parts, sep ∉ p) (hne : parts ≠ []) :
    splitChar sep (joinChar sep parts) = parts := by
  induction parts with
  | nil => exact absurd rfl hne
  | cons p ps ih =>
    cases ps with
    | nil =>
      rw [joinChar]
      exact splitChar_single sep p (h p (List.mem_cons_self _ _))
    | cons q qs =>
      rw [joinChar]
      rw [splitChar_append_sep sep p _ (h p (List.mem_cons_self _ _))]
      rw [ih (fun r hr => h r (List.mem_cons_of_mem _ hr)) (by simp)]

theorem mem_splitChar (sep : Char) (l : List Char) :
    ∀ p ∈ splitChar sep l, sep ∉ p := by
  induction l with
  | nil =>
    intro p hp
    rw [splitChar] at hp
    simp at hp
    rw [hp]
    simp
  | cons c cs ih =>
    intro p hp
    rw [splitChar] at hp
    by_cases h : c = sep
    · rw [if_pos h] at hp
      rcases List.mem_cons.mp hp with h1 | h2
      · rw [h1]; simp
      · exact ih p h2
    · rw [if_neg h] at hp
      cases hs : splitChar sep cs with
      | nil => exact absurd hs (splitChar_ne_nil _ _)
      | cons q qs =>
        rw [hs] at hp
        rcases List.mem_cons.mp hp with h1 | h2
        · rw [h1]
          intro hm
          rcases List.mem_cons.mp hm with h3 | h4
          · exact h h3.symm
          · exact ih q (hs ▸ List.mem_cons_self _ _) h4
        · exact ih p (hs ▸ List.mem_cons_of_mem _ h2)

theorem mapMO_parse_intToStr (ns : List ℤ) :
    mapMO (fun p => (parseInt p).map Scalar.int) (ns.map intToStr) = some (ns.map Scalar.int) := by
  induction ns with
  | nil => rfl
  | cons n ns' ih =>
    rw [List.map_cons, mapMO, parseInt_intToStr, Option.map_some']
    dsimp only
    rw [ih, Option.map_some', List.map_cons]

theorem string_to_id_join (p0 : List Char) (ns : List ℤ) (h0 : '@' ∉ p0) (hne : ns ≠ []) :
    string_to_id (joinChar '@' (p0 :: ns.map intToStr)) =
      some (.seq (.str (if p0 = [] then [' '] else p0) :: ns.map Scalar.int)) := by
  cases ns with
  | nil => exact absurd rfl hne
  | cons n ns' =>
    have hmem : ∀ p ∈ p0 :: (n :: ns').map intToStr, '@' ∉ p := by
      intro p hp
      rcases List.mem_cons.mp hp with h1 | h2
      · exact h1 ▸ h0
      · rcases List.mem_map.mp h2 with ⟨m, _, hm⟩
        exact hm ▸ at_not_mem_intToStr m
    have hsplit : splitChar '@' (joinChar '@' (p0 :: (n :: ns').map intToStr)) =
        p0 :: intToStr n :: ns'.map intToStr := by
      rw [splitChar_joinChar '@' _ hmem (by simp), List.map_cons]
    rw [string_to_id, hsplit]
    dsimp only
    rw [show intToStr n :: ns'.map intToStr = (n :: ns').map intToStr from (List.map_cons _ _ _).symm]
    rw [mapMO_parse_intToStr, Option.map_some']

theorem getLast?_cons_of_ne_nil (a : α) (l : List α) (h : l ≠ []) :
    (a :: l).getLast? = l.getLast? := by
  cases l with
  | nil => exact absurd rfl h
  | cons b l' => exact List.getLast?_cons_cons

theorem dts_eq_self (l : List Scalar) :
    ∀ v : Scalar, l.getLast? = some v → isSentinel v = false → dropTrailingSentinels l = l := by
  induction l with
  | nil => intro v hv _; simp at hv
  | cons a rest ih =>
    intro v hv hs
    cases rest with
    | nil =>
      have hva : v = a := by
        simp [List.getLast?] at hv
        exact hv.symm
      subst hva
      rw [dropTrailingSentinels]
      rw [if_neg (by rw [hs]; simp)]
      rfl
    | cons b rest' =>
      rw [List.getLast?_cons_cons] at hv
      have ihr := ih v hv hs
      rw [dropTrailingSentinels, ihr]

theorem dts_cons_len (a : Scalar) (l : List Scalar)
    (h : 2 ≤ (dropTrailingSentinels (a :: l)).length) :
    dropTrailingSentinels (a :: l) = a :: dropTrailingSentinels l ∧
      dropTrailingSentinels l ≠ [] := by
  rw [dropTrailingSentinels] at h ⊢
  cases hr : dropTrailingSentinels l with
  | nil =>
    rw [hr] at h
    dsimp only at h
    cases hb : isSentinel a with
    | true => rw [if_pos hb] at h; simp at h
    | false => rw [if_neg (by rw [hb]; simp)] at h; simp at h
  | cons q qs =>
    exact ⟨rfl, by simp⟩

theorem dts_map_int (ns : List ℤ) :
    ∃ ms : List ℤ, dropTrailingSentinels (ns.map Scalar.int) = ms.map Scalar.int := by
  induction ns with
  | nil => exact ⟨[], rfl⟩
  | cons n ns' ih =>
    obtain ⟨ms', hms⟩ := ih
    cases ms' with
    | nil =>
      rw [List.map_nil] at hms
      by_cases h0 : n = 0
      · refine ⟨[], ?_⟩
        rw [List.map_cons, dropTrailingSentinels, hms]
        dsimp only
        rw [if_pos (by simp [isSentinel, h0])]
        rfl
      · refine ⟨[n], ?_⟩
        rw [List.map_cons, dropTrailingSentinels, hms]
        dsimp only
        rw [if_neg (by simp [isSentinel, h0])]
        rfl
    | cons m ms'' =>
      refine ⟨n :: m :: ms'', ?_⟩
      rw [List.map_cons] at hms
      rw [List.map_cons, dropTrailingSentinels, hms]
      dsimp only
      rw [List.map_cons, List.map_cons]

theorem map_render_int (ns : List ℤ) :
    List.map renderKeyItem (ns.map Scalar.int) = ns.map intToStr := by
  induction ns with
  | nil => rfl
  | cons n ns' ih =>
    rw [List.map_cons, List.map_cons, List.map_cons, ih]
    rfl

theorem canonical_parts (ps : List (List Char))
    (h : ∀ p ∈ ps, ∃ n : ℤ, parseInt p = some n ∧ intToStr n = p) :
    ∃ ns : List ℤ, ps = ns.map intToStr := by
  induction ps with
  | nil => exact ⟨[], rfl⟩
  | cons p ps' ih =>
    obtain ⟨n, _, hn⟩ := h p (List.mem_cons_self _ _)
    obtain ⟨ns', hns⟩ := ih (fun q hq => h q (List.mem_cons_of_mem _ hq))
    exact ⟨n :: ns', by rw [List.map_cons, hn, ← hns]⟩

theorem intToStr_ne_zero_str (n : ℤ) (h : n ≠ 0) : intToStr n ≠ ['0'] := by
  intro hz
  have h1 : parseInt (intToStr n) = some n := parseInt_intToStr n
  rw [hz] at h1
  have h2 : parseInt ['0'] = some 0 := by decide
  rw [h2] at h1
  exact h (by injection h1 with h1; exact h1.symm)

/-- Counterexample to claim C4 as stated: the string a-sign-007 has no
trailing-sentinel-droppable segment (it decodes to the pair of the string
a and the integer 7, whose trailing segment is not a sentinel), yet
encoding its decoded form gives a-sign-7, a different string; and the
composite identifier whose segments are the strings a and 1 comes back
from the round trip with its second segment turned into the integer 1,
which is not the original identifier even up to trailing-sentinel
truncation. -/
theorem c4_key_roundtrip_counterexample :
    string_to_id ['a', '@', '0', '0', '7'] = some (.seq [.str ['a'], .int 7]) ∧
    dropTrailingSentinels [Scalar.str ['a'], Scalar.int 7] = [Scalar.str ['a'], Scalar.int 7] ∧
    (string_to_id ['a', '@', '0', '0', '7']).map id_to_string = some ['a', '@', '7'] ∧
    ['a', '@', '7'] ≠ ['a', '@', '0', '0', '7'] ∧
    string_to_id (id_to_string (.seq [Scalar.str ['a'], Scalar.str ['1']])) =
      some (.seq [Scalar.str ['a'], Scalar.int 1]) ∧
    dropTrailingSentinels [Scalar.str ['a'], Scalar.str ['1']] =
      [Scalar.str ['a'], Scalar.str ['1']] ∧
    IdVal.seq [Scalar.str ['a'], Scalar.int 1] ≠ IdVal.seq [Scalar.str ['a'], Scalar.str ['1']] := by
  refine ⟨?_, ?_, ?_, ?_, ?_, ?_, ?_⟩ <;> decide

/-- Claim C4, amended: encode after decode is the identity on single-part
strings unconditionally, and on multi-part strings whose first segment is
not the single-space string, whose later segments are canonical decimal
integer strings, and whose last segment is not the zero literal; decode
after encode reproduces a scalar string identifier without separator
exactly, and reproduces a composite identifier with a non-empty
separator-free string head and integer tail up to trailing-sentinel
truncation whenever at least two segments survive the truncation. -/
theorem c4_key_roundtrip :
    (∀ s : List Char, '@' ∉ s → (string_to_id s).map id_to_string = some s) ∧
    (∀ (s p0 : List Char) (ps : List (List Char)),
      splitChar '@' s = p0 :: ps → ps ≠ [] → p0 ≠ [' '] →
      (∀ p ∈ ps, ∃ n : ℤ, parseInt p = some n ∧ intToStr n = p) →
      (∀ pl, ps.getLast? = some pl → pl ≠ ['0']) →
      (string_to_id s).map id_to_string = some s) ∧
    (∀ s : List Char, '@' ∉ s →
      string_to_id (id_to_string (.scalar (.str s))) = some (.scalar (.str s))) ∧
    (∀ (h : List Char) (ns : List ℤ), '@' ∉ h → h ≠ [] →
      2 ≤ (dropTrailingSentinels (.str h :: ns.map Scalar.int)).length →
      string_to_id (id_to_string (.seq (.str h :: ns.map Scalar.int))) =
        some (.seq (dropTrailingSentinels (.str h :: ns.map Scalar.int)))) := by
  refine ⟨?_, ?_, ?_, ?_⟩
  · intro s hat
    rw [string_to_id, splitChar_single '@' s hat]
    dsimp only
    rw [Option.map_some']
    rfl
  · intro s p0 ps hsplit hne hp0space hcanon hlast
    obtain ⟨ns, hns⟩ := canonical_parts ps hcanon
    subst hns
    have hns_ne : ns ≠ [] := by
      intro h0
      rw [h0] at hne
      exact hne rfl
    have hs_eq : s = joinChar '@' (p0 :: ns.map intToStr) := by
      have hj := joinChar_splitChar '@' s
      rw [hsplit] at hj
      exact hj.symm
    have h0mem : '@' ∉ p0 := mem_splitChar '@' s p0 (hsplit ▸ List.mem_cons_self _ _)
    obtain ⟨nl, hnl⟩ := Option.isSome_iff_exists.mp (List.getLast?_isSome.mpr hns_ne)
    have hlast_ne : nl ≠ 0 := by
      intro h0
      have hplast : (ns.map intToStr).getLast? = some (intToStr nl) := by
        rw [List.getLast?_map, hnl]
        rfl
      refine hlast (intToStr nl) hplast ?_
      rw [h0]
      rfl
    rw [hs_eq, string_to_id_join p0 ns h0mem hns_ne, Option.map_some']
    congr 1
    rw [id_to_string, to_key_string]
    have hmap_ne : ns.map Scalar.int ≠ [] := by
      intro h0
      exact hns_ne (List.map_eq_nil_iff.mp h0)
    have hgl : ((Scalar.str (if p0 = [] then [' '] else p0)) :: ns.map Scalar.int).getLast? =
        some (Scalar.int nl) := by
      rw [getLast?_cons_of_ne_nil _ _ hmap_ne, List.getLast?_map, hnl]
      rfl
    have hdts := dts_eq_self _ _ hgl (by simp [isSentinel, hlast_ne])
    rw [hdts, List.map_cons, map_render_int]
    by_cases hp0 : p0 = []
    · rw [if_pos hp0, hp0]
      rfl
    · rw [if_neg hp0]
      rw [show renderKeyItem (.str p0) = if p0 = [' '] then [] else p0 from rfl]
      rw [if_neg hp0space]
  · intro s hat
    rw [id_to_string, string_to_id, splitChar_single '@' s hat]
  · intro h ns hat hne hlen
    obtain ⟨htr, hdne⟩ := dts_cons_len (.str h) (ns.map Scalar.int) hlen
    obtain ⟨ms, hms⟩ := dts_map_int ns
    have hms_ne : ms ≠ [] := by
      intro h0
      rw [h0, List.map_nil] at hms
      exact hdne hms
    rw [id_to_string, to_key_string, htr, hms, List.map_cons, map_render_int]
    by_cases hsp : h = [' ']
    · rw [show renderKeyItem (.str h) = if h = [' '] then [] else h from rfl, if_pos hsp]
      rw [string_to_id_join [] ms (by simp) hms_ne]
      rw [if_pos rfl, hsp]
    · rw [show renderKeyItem (.str h) = if h = [' '] then [] else h from rfl, if_neg hsp]
      rw [string_to_id_join h ms hat hms_ne]
      rw [if_neg hne]

/-- Witness for the amended claim C4: both round-trip directions at a
concrete canonical two-part key. -/
theorem c4_key_roundtrip_witness :
    (string_to_id ['a', '@', '1']).map id_to_string = some ['a', '@', '1'] ∧
    string_to_id (id_to_string (.seq [Scalar.str ['a'], Scalar.int 1, Scalar.int 0])) =
      some (.seq [Scalar.str ['a'], Scalar.int 1]) := by
  constructor
  · refine c4_key_roundtrip.2.1 ['a', '@', '1'] ['a'] [['1']] (by decide) (by decide) (by decide)
      ?_ ?_
    · intro p hp
      rw [List.mem_singleton] at hp
      subst hp
      exact ⟨1, by decide, by decide⟩
    · intro pl hpl
      simp at hpl
      subst hpl
      decide
  · have h4 := c4_key_roundtrip.2.2.2 ['a'] [1, 0] (by decide) (by decide) (by decide)
    exact h4.trans (by decide)

theorem tagCellsAux_eq_ffGo (idxs : List ℤ) (vals : List Value) :
    ∀ (fuel i ptr : Nat) (last : Option Value),
      tagCellsAux idxs vals fuel i ptr last = ffGo fuel (idxs.drop ptr) (vals.drop ptr) i last := by
  intro fuel
  induction fuel with
  | zero => intro i ptr last; rfl
  | succ fuel ih =>
    intro i ptr last
    rw [tagCellsAux]
    cases hx : idxs[ptr]? with
    | none =>
      have hdrop : idxs.drop ptr = [] :=
        List.drop_eq_nil_of_le (List.getElem?_eq_none_iff.mp hx)
      rw [hdrop, ffGo]
      rw [ih (i + 1) ptr last, hdrop]
    | some x =>
      obtain ⟨hlt, he⟩ := List.getElem?_eq_some.mp hx
      have hdrop : idxs.drop ptr = x :: idxs.drop (ptr + 1) := by
        rw [List.drop_eq_getElem_cons hlt, he]
      rw [hdrop, ffGo.eq_def]
      dsimp only
      by_cases hxi : x = (i : ℤ)
      · rw [if_pos hxi, if_pos hxi]
        cases hv : vals[ptr]? with
        | none =>
          have hvdrop : vals.drop ptr = [] :=
            List.drop_eq_nil_of_le (List.getElem?_eq_none_iff.mp hv)
          rw [hvdrop]
        | some v =>
          obtain ⟨hvlt, hve⟩ := List.getElem?_eq_some.mp hv
          have hvdrop : vals.drop ptr = v :: vals.drop (ptr + 1) := by
            rw [List.drop_eq_getElem_cons hvlt, hve]
          rw [hvdrop]
          dsimp only
          rw [ih (i + 1) (ptr + 1) (some v)]
      · rw [if_neg hxi, if_neg hxi]
        rw [ih (i + 1) ptr last, hdrop]

theorem lastSeen_none_of_gt (ix : List ℤ) (vs : List Value) (j : Nat)
    (h : ∀ x ∈ ix, (j : ℤ) < x) : lastSeenSpec ix vs j = none := by
  unfold lastSeenSpec
  have hnil : (ix.zip vs).filter (fun p => decide (p.1 ≤ (j : ℤ))) = [] :=
    List.filter_eq_nil_iff.mpr (fun p hp => by
      simp only [decide_eq_true_eq, not_le]
      exact h p.1 (List.of_mem_zip hp).1)
  rw [hnil]
  rfl

theorem lastSeen_consume (x : ℤ) (v : Value) (ixr : List ℤ) (vsr : List Value) (i : Nat)
    (hx : x = (i : ℤ)) (hgt : ∀ y ∈ ixr, (i : ℤ) < y) :
    lastSeenSpec (x :: ixr) (v :: vsr) i = some v := by
  unfold lastSeenSpec
  have hrest : (ixr.zip vsr).filter (fun p => decide (p.1 ≤ (i : ℤ))) = [] :=
    List.filter_eq_nil_iff.mpr (fun p hp => by
      simp only [decide_eq_true_eq, not_le]
      exact hgt p.1 (List.of_mem_zip hp).1)
  rw [List.zip_cons_cons, List.filter_cons_of_pos (by simp [hx]), hrest]
  rfl

theorem lastSeen_shift (x : ℤ) (v : Value) (ixr : List ℤ) (vsr : List Value) (j : Nat)
    (last : Option Value) (hxj : x ≤ (j : ℤ)) :
    orElseV (lastSeenSpec (x :: ixr) (v :: vsr) j) last =
      orElseV (lastSeenSpec ixr vsr j) (some v) := by
  unfold lastSeenSpec
  rw [List.zip_cons_cons, List.filter_cons_of_pos (by simp [hxj])]
  cases hF : (ixr.zip vsr).filter (fun p => decide (p.1 ≤ (j : ℤ))) with
  | nil => rfl
  | cons q L =>
    rw [List.getLast?_cons_cons]
    cases hG : (q :: L).getLast? with
    | none =>
      have : (q :: L).getLast?.isSome := List.getLast?_isSome.mpr (by simp)
      rw [hG] at this
      simp at this
    | some w =>
      rw [Option.map_some']
      rfl

theorem ffGo_spec (fuel : Nat) :
    ∀ (ix : List ℤ) (vs : List Value) (i : Nat) (last : Option Value),
      List.Chain' (· < ·) ix → (∀ x ∈ ix, (i : ℤ) ≤ x) → ix.length = vs.length →
      ffGo fuel ix vs i last =
        some ((List.range' i fuel).map
          (fun j => cellStr (orElseV (lastSeenSpec ix vs j) last))) := by
  induction fuel with
  | zero =>
    intro ix vs i last _ _ _
    rfl
  | succ fuel ih =>
    intro ix vs i last hchain hmem hlen
    cases ix with
    | nil =>
      rw [ffGo]
      rw [ih [] vs (i + 1) last (by simp) (by simp) hlen, Option.map_some']
      rw [List.range'_succ, List.map_cons]
      rfl
    | cons x ixr =>
      cases vs with
      | nil => simp at hlen
      | cons v vsr =>
        have hpw := List.chain'_iff_pairwise.mp hchain
        obtain ⟨hx_lt, hpw'⟩ := List.pairwise_cons.mp hpw
        have hchain' : List.Chain' (· < ·) ixr := List.chain'_iff_pairwise.mpr hpw'
        have hxi_le : (i : ℤ) ≤ x := hmem x (List.mem_cons_self _ _)
        have hlen' : ixr.length = vsr.length := by simpa using hlen
        rw [ffGo]
        by_cases hxi : x = (i : ℤ)
        · rw [if_pos hxi]
          have hgt : ∀ y ∈ ixr, (i : ℤ) < y := fun y hy => hxi ▸ hx_lt y hy
          have hmem' : ∀ y ∈ ixr, ((i + 1 : ℕ) : ℤ) ≤ y := by
            intro y hy
            have := hgt y hy
            push_cast
            omega
          rw [ih ixr vsr (i + 1) (some v) hchain' hmem' hlen', Option.map_some']
          rw [List.range'_succ, List.map_cons]
          congr 1
          congr 1
          · rw [lastSeen_consume x v ixr vsr i hxi hgt]
            rfl
          · apply List.map_congr_left
            intro j hj
            have hji : i + 1 ≤ j := (List.mem_range'_1.mp hj).1
            rw [lastSeen_shift x v ixr vsr j last (by rw [hxi]; omega)]
        · rw [if_neg hxi]
          have hx_gt : (i : ℤ) < x := lt_of_le_of_ne hxi_le (fun hh => hxi hh.symm)
          have hmem' : ∀ y ∈ x :: ixr, ((i + 1 : ℕ) : ℤ) ≤ y := by
            intro y hy
            rcases List.mem_cons.mp hy with h1 | h2
            · subst h1
              push_cast
              omega
            · have := hx_lt y h2
              push_cast
              omega
          rw [ih (x :: ixr) (v :: vsr) (i + 1) last hchain hmem' hlen, Option.map_some']
          rw [List.range'_succ, List.map_cons]
          have hnone : lastSeenSpec (x :: ixr) (v :: vsr) i = none := by
            apply lastSeen_none_of_gt
            intro y hy
            rcases List.mem_cons.mp hy with h1 | h2
            · subst h1
              exact hx_gt
            · exact lt_trans hx_gt (hx_lt y h2)
          congr 1
          congr 1
          rw [hnone]
          rfl

/-- Claim C7: tabulation forward-fills. Concretely, over the three rows of
the decoded elapsedTimes 0, 10, 20, a numeric tag recorded only at index 1
with value 5 yields the tag column empty, then 5, then 5, and the
ElapsedTime column is the offsets as text; in general, for a tag with
strictly increasing non-negative recorded indexes and matching arity, the
cursor walk of history_to_csv emits in every row the textual form of the
value at the greatest recorded index at most the row index, empty when the
tag has not yet been observed. -/
theorem c7_forward_fill :
    (tagColumn ⟨"t", "number", [1], [Value.int 5]⟩ 3 = some ["", "5", "5"] ∧
     csvFirstColumn ⟨[0, 10, 20], [⟨"t", "number", [1], [Value.int 5]⟩]⟩ = ["0", "10", "20"]) ∧
    (∀ (nm k : String) (idxs : List ℤ) (vals : List Value) (n : Nat),
      List.Chain' (· < ·) idxs → (∀ x ∈ idxs, 0 ≤ x) → idxs.length = vals.length →
      tagColumn ⟨nm, k, idxs, vals⟩ n = some (specForwardFill idxs vals n)) := by
  refine ⟨⟨?_, ?_⟩, ?_⟩
  · decide
  · decide
  · intro nm k idxs vals n hchain hmem hlen
    unfold tagColumn
    dsimp only
    rw [tagCellsAux_eq_ffGo idxs vals n 0 0 none, List.drop_zero, List.drop_zero]
    have hmem0 : ∀ x ∈ idxs, ((0 : ℕ) : ℤ) ≤ x := by
      intro x hx
      have := hmem x hx
      push_cast
      omega
    rw [ffGo_spec n idxs vals 0 none hchain hmem0 hlen]
    unfold specForwardFill
    rw [List.range_eq_range']
    congr 1
    apply List.map_congr_left
    intro j _
    cases hLS : lastSeenSpec idxs vals j with
    | none => rfl
    | some w => rfl

/-- Witness for claim C7: the cursor walk matches the forward-fill
specification at the concrete one-observation tag over three rows. -/
theorem c7_forward_fill_witness :
    tagColumn ⟨"t", "number", [1], [Value.int 5]⟩ 3 =
      some (specForwardFill [1] [Value.int 5] 3) :=
  c7_forward_fill.2 "t" "number" [1] [Value.int 5] 3 (by simp) (by decide) (by decide)

end Adaptive
